import Mathlib

/-!
# A model of the zcached wire codec, server connection loop and client receive loop

Shallow embedding of the `zcached` crate (files `src/lib.rs`, `src/server.rs`,
`src/client.rs`, `src/db.rs`).  Bytes are naturals below 256, strings are byte
lists, `u32` lengths are four big-endian bytes with the `usize -> u32` cast
modelled as `% 2^32`.  Fallible Rust code returns `Except`; a Rust panic
(`Result::unwrap` on `Err`) is a distinct terminal outcome of the connection
loop.  Loops are modelled with explicit fuel; `none` means the fuel ran out.
-/

deriving instance DecidableEq for Except

namespace Zcached

/-- `(n as u32).to_be_bytes()`: the four big-endian bytes of `n % 2^32`. -/
def beBytes4 (n : Nat) : List Nat :=
  [n / 2 ^ 24 % 256, n / 2 ^ 16 % 256, n / 2 ^ 8 % 256, n % 256]

/-- `u32::from_be_bytes` on a four-byte slice (`0` on any other shape,
which the source rules out by slicing exactly four bytes). -/
def fromBe4 : List Nat → Nat
  | [a, b, c, d] => ((a * 256 + b) * 256 + c) * 256 + d
  | _ => 0

/-- Encoded width of a UTF-8 sequence from its first byte
(0 for bytes that can never start a sequence: `0x80..=0xC1`, `>= 0xF5`). -/
def utf8Width (a : Nat) : Nat :=
  if 0xC2 ≤ a ∧ a ≤ 0xDF then 2
  else if 0xE0 ≤ a ∧ a ≤ 0xEF then 3
  else if 0xF0 ≤ a ∧ a ≤ 0xF4 then 4
  else 0

/-- Admissible range of the second byte of a multi-byte UTF-8 sequence,
given its first byte (Rust's `run_utf8_validation` table: `0xE0` and `0xF0`
exclude overlong encodings, `0xED` surrogates, `0xF4` code points past
`U+10FFFF`). -/
def utf8SecondOk (a b : Nat) : Bool :=
  if a = 0xE0 then decide (0xA0 ≤ b ∧ b ≤ 0xBF)
  else if a = 0xED then decide (0x80 ≤ b ∧ b ≤ 0x9F)
  else if a = 0xF0 then decide (0x90 ≤ b ∧ b ≤ 0xBF)
  else if a = 0xF4 then decide (0x80 ≤ b ∧ b ≤ 0x8F)
  else decide (0x80 ≤ b ∧ b ≤ 0xBF)

/-- Byte-at-a-time UTF-8 validation.  `none` means the scan is at a
sequence boundary; `some (a, rem)` means a sequence started by byte `a`
still expects `rem` continuation bytes (the next one is the second byte of
the sequence exactly when `rem = utf8Width a - 1`). -/
def utf8ValidAux : Option (Nat × Nat) → List Nat → Bool
  | none, [] => true
  | some _, [] => false
  | none, a :: l =>
    if a < 0x80 then utf8ValidAux none l
    else if utf8Width a = 0 then false
    else utf8ValidAux (some (a, utf8Width a - 1)) l
  | some (a, rem), b :: l =>
    if (if rem = utf8Width a - 1 then utf8SecondOk a b
        else decide (0x80 ≤ b ∧ b ≤ 0xBF)) then
      if rem = 1 then utf8ValidAux none l else utf8ValidAux (some (a, rem - 1)) l
    else false

/-- `std::str::from_utf8` validity check, following Rust's
`run_utf8_validation`. -/
def utf8Valid (l : List Nat) : Bool := utf8ValidAux none l

/-- All bytes are ASCII (`< 0x80`). -/
def asciiOnly (l : List Nat) : Bool := l.all (· < 0x80)

/-- `Request` from `src/zcached/src/lib.rs`; `&str` fields become byte lists. -/
inductive Request where
  | get (key : List Nat)
  | set (key value : List Nat)
  | delete (key : List Nat)
  | flush
deriving DecidableEq

/-- `Response` from `src/zcached/src/lib.rs`. -/
inductive Response where
  | get (value : Option (List Nat))
  | set
  | delete
  | flush
deriving DecidableEq

/-- `ParsingError` from `src/zcached/src/error.rs`. -/
inductive ParsingError where
  | utf8Error
  | other
deriving DecidableEq

/-- `read_element` from `src/zcached/src/lib.rs`.  The source threads the
cursor through `&mut usize`; here the (possibly advanced) cursor is returned
alongside the optional element.  Note that the cursor is advanced past the
four length bytes even when the element itself is truncated, and the
`try_into` on an exactly-four-byte slice cannot fail. -/
def read_element (input : List Nat) (cursor : Nat) :
    Except ParsingError (Option (List Nat) × Nat) :=
  let elementSizeLen := 4
  let elementSizeEnd := cursor + elementSizeLen
  if input.length < elementSizeEnd then
    .ok (none, cursor)
  else
    let bytes := (input.drop cursor).take elementSizeLen
    let elementSize := fromBe4 bytes
    if elementSize = 0 then
      .ok (none, cursor)
    else if input.length < elementSizeEnd + elementSize then
      .ok (none, elementSizeEnd)
    else
      let elementBytes := (input.drop elementSizeEnd).take elementSize
      if utf8Valid elementBytes then
        .ok (some elementBytes, elementSizeEnd + elementSize)
      else
        .error .utf8Error

/-- `parse_request` from `src/zcached/src/lib.rs`.  For opcode 2 the source
builds the tuple `(read_element(..), read_element(..))`, so both calls run
(the second from the cursor the first left behind) before the match. -/
def parse_request (input : List Nat) :
    Except ParsingError (Option (Request × Nat)) :=
  match input.head? with
  | none => .ok none
  | some opCode =>
    if opCode = 1 then
      match read_element input 1 with
      | .error e => .error e
      | .ok (none, _) => .ok none
      | .ok (some key, c) => .ok (some (.get key, c))
    else if opCode = 2 then
      match read_element input 1 with
      | .error e => .error e
      | .ok (r₁, c₁) =>
        match read_element input c₁ with
        | .error e => .error e
        | .ok (r₂, c₂) =>
          match r₁, r₂ with
          | some key, some value => .ok (some (.set key value, c₂))
          | _, _ => .ok none
    else if opCode = 3 then
      match read_element input 1 with
      | .error e => .error e
      | .ok (none, _) => .ok none
      | .ok (some key, c) => .ok (some (.delete key, c))
    else if opCode = 4 then
      .ok (some (.flush, 1))
    else
      .ok none

/-- `parse_response` from `src/zcached/src/lib.rs`.  It returns no consumed
byte count; a `Get` response swallows a missing element as `none`. -/
def parse_response (input : List Nat) :
    Except ParsingError (Option Response) :=
  match input.head? with
  | none => .ok none
  | some opCode =>
    if opCode = 1 then
      match read_element input 1 with
      | .error e => .error e
      | .ok (key, _) => .ok (some (.get key))
    else if opCode = 2 then .ok (some .set)
    else if opCode = 3 then .ok (some .delete)
    else if opCode = 4 then .ok (some .flush)
    else .ok none

/-- `serialize_request` from `src/zcached/src/lib.rs`. -/
def serialize_request : Request → List Nat
  | .get key => 1 :: (beBytes4 key.length ++ key)
  | .set key value =>
      2 :: (beBytes4 key.length ++ key ++ beBytes4 value.length ++ value)
  | .delete key => 3 :: (beBytes4 key.length ++ key)
  | .flush => [4]

/-- `serialize_response` from `src/zcached/src/lib.rs`.  A value-less `Get`
response is the single opcode byte. -/
def serialize_response : Response → List Nat
  | .get (some value) => 1 :: (beBytes4 value.length ++ value)
  | .get none => [1]
  | .set => [2]
  | .delete => [3]
  | .flush => [4]

/-! ## Store (`src/zcached/src/db.rs`)

`DB` is a `HashMap<String, String>` behind a mutex; the connection loop is
the only accessor in the runs modelled here, so the lock never fails and the
map is an association list with unique keys. -/

/-- The in-memory store: association list, newest binding authoritative,
keys kept unique by `dbInsert`. -/
abbrev Db := List (List Nat × List Nat)

/-- `HashMap::get` + clone: first binding of the key, if any. -/
def dbGet (db : Db) (key : List Nat) : Option (List Nat) :=
  match db with
  | [] => none
  | (k, v) :: rest => if k = key then some v else dbGet rest key

/-- `HashMap::insert`: replace the existing binding or append a new one. -/
def dbInsert (db : Db) (key value : List Nat) : Db :=
  match db with
  | [] => [(key, value)]
  | (k, v) :: rest =>
      if k = key then (key, value) :: rest else (k, v) :: dbInsert rest key value

/-- `HashMap::remove`: drop the binding of the key, if any. -/
def dbRemove (db : Db) (key : List Nat) : Db :=
  match db with
  | [] => []
  | (k, v) :: rest => if k = key then rest else (k, v) :: dbRemove rest key

/-- The `match request` dispatch of `handle_connection`
(`src/zcached/src/server.rs`): the store operation and the response it
produces.  Store operations cannot fail in the single-connection model
(the mutex is never poisoned). -/
def applyRequest (db : Db) : Request → Db × Response
  | .get key => (db, .get (dbGet db key))
  | .set key value => (dbInsert db key value, .set)
  | .delete key => (dbRemove db key, .delete)
  | .flush => ([], .flush)

/-- Sequential application of a request list: final store and the response
of each request, in request order. -/
def runRequests (db : Db) : List Request → Db × List Response
  | [] => (db, [])
  | r :: rs =>
      let (db₁, resp) := applyRequest db r
      let (db₂, resps) := runRequests db₁ rs
      (db₂, resp :: resps)

/-! ## Byte stream (`TcpStream` as seen by the loops)

`stream` is the byte sequence the peer will deliver; `schedule` lists the
sizes in which the transport hands them over (a read returns at most the
head of the schedule; an exhausted schedule delivers everything available,
the one-shot `Cursor` behaviour of the source's tests).  `writeBudget`
makes the first `w` writes succeed and all later ones fail; `none` means
writes always succeed. -/

structure Conn where
  stream : List Nat
  schedule : List Nat
  writeBudget : Option Nat
deriving DecidableEq

/-- One `stream.read(&mut buf[..space])`: number of bytes delivered, the
bytes, and the remaining stream.  Reads never fail in this model. -/
def connRead (conn : Conn) (space : Nat) : Nat × List Nat × Conn :=
  let limit := conn.schedule.headD conn.stream.length
  let n := min space (min limit conn.stream.length)
  (n, conn.stream.take n,
    { conn with stream := conn.stream.drop n, schedule := conn.schedule.drop 1 })

/-- One `stream.write_all(..)?; stream.flush()` pair (`send_response`):
`true` when the write succeeded. -/
def connWrite (conn : Conn) : Bool × Conn :=
  match conn.writeBudget with
  | none => (true, conn)
  | some 0 => (false, conn)
  | some (w + 1) => (true, { conn with writeBudget := some w })

/-- `buffer.copy_within(nParsed..cursor, 0)`: bytes `nParsed..cursor` move to
the front, the rest of the buffer is unchanged. -/
def copyWithin (buffer : List Nat) (nParsed cursor : Nat) : List Nat :=
  (buffer.drop nParsed).take (cursor - nParsed) ++ buffer.drop (cursor - nParsed)

/-- Placing `bytes` into the buffer starting at `cursor` (the effect of a
read into `buffer[cursor..]`). -/
def writeBytes (buffer : List Nat) (cursor : Nat) (bytes : List Nat) : List Nat :=
  buffer.take cursor ++ bytes ++ buffer.drop (cursor + bytes.length)

/-- How a run of `handle_connection` ends.  `crashed` is a Rust panic: the
source calls `.unwrap()` on the `parse_request` result. -/
inductive ConnResult where
  | ok
  | tooMuchData
  | connectionResetByPeer
  | ioFault
  | crashed
deriving DecidableEq

/-- Everything observable about a finished `handle_connection` run, plus a
trace of `(cursor, buffer.length)` at the top of every loop iteration (and
at the zero-read return) for stating buffer invariants. -/
structure RunOut where
  out : List Response
  res : ConnResult
  db : Db
  trace : List (Nat × Nat)
deriving DecidableEq

/-- The externally observable part of a run: responses written, result,
final store. -/
def RunOut.obs (r : RunOut) : List Response × ConnResult × Db :=
  (r.out, r.res, r.db)

/-- The loop of `handle_connection` (`src/zcached/src/server.rs`).  The
buffer's capacity always equals its length here (`vec![0; n]` and
`resize(capacity * 2, 0)` keep them equal), so `read_end = capacity` is the
buffer length and `resize` doubles it with zero fill.  The growth step has
no cap: the source doubles whenever `buffer.len() == cursor`, and only the
`buffer.len() >= max_buffer_size` check before it can stop the connection.
`send_response` (serialize + `write_all` + `flush`) is observed at the
`Response` level: `out` records each response it writes, in order. -/
def handle_connection (fuel : Nat) (conn : Conn) (db : Db) (buffer : List Nat)
    (cursor : Nat) (maxBufferSize : Nat) (out : List Response)
    (trace : List (Nat × Nat)) : Option RunOut :=
  match fuel with
  | 0 => none
  | fuel + 1 =>
    let trace := trace ++ [(cursor, buffer.length)]
    match parse_request (buffer.take cursor) with
    | .error _ => some ⟨out, .crashed, db, trace⟩
    | .ok (some (request, nParsedBytes)) =>
      let (db', response) := applyRequest db request
      match connWrite conn with
      | (false, _) => some ⟨out, .ioFault, db', trace⟩
      | (true, conn') =>
        let out := out ++ [response]
        if nParsedBytes ≤ cursor then
          handle_connection fuel conn' db' (copyWithin buffer nParsedBytes cursor)
            (cursor - nParsedBytes) maxBufferSize out trace
        else
          handle_connection fuel conn' db' buffer cursor maxBufferSize out trace
    | .ok none =>
      if buffer.length ≥ maxBufferSize then
        some ⟨out, .tooMuchData, db, trace⟩
      else
        let buffer :=
          if buffer.length = cursor then buffer ++ List.replicate buffer.length 0
          else buffer
        let (n, bytes, conn') := connRead conn (buffer.length - cursor)
        if n = 0 then
          if cursor = 0 then
            some ⟨out, .ok, db, trace ++ [(cursor, buffer.length)]⟩
          else
            some ⟨out, .connectionResetByPeer, db, trace ++ [(cursor, buffer.length)]⟩
        else
          handle_connection fuel conn' db (writeBytes buffer cursor bytes)
            (cursor + n) maxBufferSize out trace

/-- `handle_connection` from its entry point: fresh zero-filled buffer of
the initial size, cursor 0, nothing written. -/
def run_server (fuel : Nat) (conn : Conn) (db : Db)
    (initialBufferSize maxBufferSize : Nat) : Option RunOut :=
  handle_connection fuel conn db (List.replicate initialBufferSize 0) 0
    maxBufferSize [] []

/-- How a run of the client's `receive_response` ends. -/
inductive ClientOut where
  | ok (response : Response)
  | parseFault (e : ParsingError)
  | connectionResetByPeer
  | tooMuchData
deriving DecidableEq

/-- The loop of `receive_response` (`src/zcached/src/client.rs`).  Each
iteration reads into `&mut buffer` — offset 0, overwriting earlier bytes —
and then parses the whole zero-padded buffer.  The buffer's length always
equals its capacity here, so the `len == capacity` growth test succeeds on
every iteration that reaches it. -/
def receive_response (fuel : Nat) (conn : Conn) (buffer : List Nat)
    (maxBufferSize : Nat) : Option ClientOut :=
  match fuel with
  | 0 => none
  | fuel + 1 =>
    let (n, bytes, conn') := connRead conn buffer.length
    let buffer := writeBytes buffer 0 bytes
    match parse_response buffer with
    | .error e => some (.parseFault e)
    | .ok (some response) => some (.ok response)
    | .ok none =>
      if n = 0 then
        some .connectionResetByPeer
      else
        let buffer :=
          if buffer.length = buffer.length then buffer ++ List.replicate buffer.length 0
          else buffer
        if buffer.length ≥ maxBufferSize then
          some .tooMuchData
        else
          receive_response fuel conn' buffer maxBufferSize

/-- `receive_response` from its entry point: fresh zero-filled buffer of the
initial size (4096 in the source; a parameter here). -/
def run_client (fuel : Nat) (conn : Conn) (initBufferSize maxBufferSize : Nat) :
    Option ClientOut :=
  receive_response fuel conn (List.replicate initBufferSize 0) maxBufferSize

/-! ## Support lemmas -/

theorem beBytes4_length (n : Nat) : (beBytes4 n).length = 4 := rfl

theorem fromBe4_beBytes4 (n : Nat) : fromBe4 (beBytes4 n) = n % 2 ^ 32 := by
  simp only [beBytes4, fromBe4]
  omega

theorem fromBe4_beBytes4_of_lt {n : Nat} (h : n < 2 ^ 32) :
    fromBe4 (beBytes4 n) = n := by
  rw [fromBe4_beBytes4, Nat.mod_eq_of_lt h]

theorem read_element_short {input : List Nat} {c : Nat}
    (h : input.length < c + 4) :
    read_element input c = .ok (none, c) := by
  unfold read_element
  rw [if_pos h]

theorem read_element_zero {input : List Nat} {c : Nat}
    (h4 : c + 4 ≤ input.length)
    (h0 : fromBe4 ((input.drop c).take 4) = 0) :
    read_element input c = .ok (none, c) := by
  unfold read_element
  rw [if_neg (by omega), if_pos h0]

theorem read_element_trunc {input : List Nat} {c : Nat}
    (h4 : c + 4 ≤ input.length)
    (h0 : fromBe4 ((input.drop c).take 4) ≠ 0)
    (h : input.length < c + 4 + fromBe4 ((input.drop c).take 4)) :
    read_element input c = .ok (none, c + 4) := by
  unfold read_element
  rw [if_neg (by omega), if_neg h0, if_pos h]

theorem read_element_exact (pre k rest : List Nat)
    (hk : k ≠ []) (hlen : k.length < 2 ^ 32) (hval : utf8Valid k = true) :
    read_element (pre ++ (beBytes4 k.length ++ (k ++ rest))) pre.length =
      .ok (some k, pre.length + 4 + k.length) := by
  have hdrop : (pre ++ (beBytes4 k.length ++ (k ++ rest))).drop pre.length =
      beBytes4 k.length ++ (k ++ rest) := List.drop_left pre _
  have hlen' : (pre ++ (beBytes4 k.length ++ (k ++ rest))).length =
      pre.length + 4 + (k.length + rest.length) := by
    simp [List.length_append, beBytes4_length]
    omega
  have hbytes : ((pre ++ (beBytes4 k.length ++ (k ++ rest))).drop pre.length).take 4 =
      beBytes4 k.length := by
    rw [hdrop]
    exact List.take_left' (beBytes4_length k.length)
  have hsz : fromBe4 (((pre ++ (beBytes4 k.length ++ (k ++ rest))).drop pre.length).take 4) =
      k.length := by rw [hbytes]; exact fromBe4_beBytes4_of_lt hlen
  have hkpos : 0 < k.length := List.length_pos.mpr hk
  have helem : ((pre ++ (beBytes4 k.length ++ (k ++ rest))).drop (pre.length + 4)).take k.length
      = k := by
    have : (pre ++ (beBytes4 k.length ++ (k ++ rest))) =
        (pre ++ beBytes4 k.length) ++ (k ++ rest) := by simp [List.append_assoc]
    rw [this]
    have hl : (pre ++ beBytes4 k.length).length = pre.length + 4 := by
      simp [beBytes4_length]
    rw [List.drop_left' hl]
    exact List.take_left' rfl
  simp only [read_element]
  rw [if_neg (by omega), hsz, if_neg (by omega), if_neg (by omega), helem,
    if_pos hval]

/-- Wellformed string field: what a Rust `&str` whose encoding round-trips
must satisfy (nonempty, valid UTF-8, length below the `u32` cast). -/
def wfStr (l : List Nat) : Bool :=
  !l.isEmpty && utf8Valid l && decide (l.length < 2 ^ 32)

def wfRequest : Request → Bool
  | .get key => wfStr key
  | .set key value => wfStr key && wfStr value
  | .delete key => wfStr key
  | .flush => true

def asciiRequest : Request → Bool
  | .get key => asciiOnly key
  | .set key value => asciiOnly key && asciiOnly value
  | .delete key => asciiOnly key
  | .flush => true

def wfResponse : Response → Bool
  | .get (some value) => wfStr value
  | _ => true

theorem wfStr_spec {l : List Nat} (h : wfStr l = true) :
    l ≠ [] ∧ utf8Valid l = true ∧ l.length < 2 ^ 32 := by
  simp only [wfStr, Bool.and_eq_true, Bool.not_eq_true', List.isEmpty_eq_false_iff_exists_mem,
    decide_eq_true_eq] at h
  rcases h with ⟨⟨h1, h2⟩, h3⟩
  exact ⟨by rintro rfl; simp at h1, h2, h3⟩

theorem parse_request_exact (r : Request) (rest : List Nat)
    (h : wfRequest r = true) :
    parse_request (serialize_request r ++ rest) =
      .ok (some (r, (serialize_request r).length)) := by
  cases r with
  | flush =>
    simp [serialize_request, parse_request]
  | get key =>
    obtain ⟨hne, hval, hlt⟩ := wfStr_spec h
    have hshape : serialize_request (.get key) ++ rest =
        [1] ++ (beBytes4 key.length ++ (key ++ rest)) := by
      simp [serialize_request]
    rw [hshape]
    have hre := read_element_exact [1] key rest hne hlt hval
    simp only [List.length_singleton] at hre
    simp only [List.singleton_append] at hre
    simp [parse_request, hre, serialize_request, beBytes4_length]
    omega
  | delete key =>
    obtain ⟨hne, hval, hlt⟩ := wfStr_spec h
    have hshape : serialize_request (.delete key) ++ rest =
        [3] ++ (beBytes4 key.length ++ (key ++ rest)) := by
      simp [serialize_request]
    rw [hshape]
    have hre := read_element_exact [3] key rest hne hlt hval
    simp only [List.length_singleton] at hre
    simp only [List.singleton_append] at hre
    simp [parse_request, hre, serialize_request, beBytes4_length]
    omega
  | set key value =>
    simp only [wfRequest, Bool.and_eq_true] at h
    obtain ⟨hkne, hkval, hklt⟩ := wfStr_spec h.1
    obtain ⟨hvne, hvval, hvlt⟩ := wfStr_spec h.2
    have hshape : serialize_request (.set key value) ++ rest =
        [2] ++ (beBytes4 key.length ++ (key ++ (beBytes4 value.length ++ (value ++ rest)))) := by
      simp [serialize_request]
    rw [hshape]
    have hre1 := read_element_exact [2] key (beBytes4 value.length ++ (value ++ rest)) hkne hklt hkval
    simp only [List.length_singleton] at hre1
    have hshape2 : [2] ++ (beBytes4 key.length ++ (key ++ (beBytes4 value.length ++ (value ++ rest)))) =
        ([2] ++ beBytes4 key.length ++ key) ++ (beBytes4 value.length ++ (value ++ rest)) := by
      simp [List.append_assoc]
    have hre2 := read_element_exact ([2] ++ beBytes4 key.length ++ key) value rest hvne hvlt hvval
    have hplen : ([2] ++ beBytes4 key.length ++ key).length = 1 + 4 + key.length := by
      simp [beBytes4_length]
      omega
    rw [hplen] at hre2
    rw [← hshape2] at hre2
    simp only [List.singleton_append] at hre1 hre2
    simp [parse_request, hre1, hre2, serialize_request, beBytes4_length]
    omega

theorem utf8Valid_of_ascii : ∀ l : List Nat, asciiOnly l = true → utf8Valid l = true
  | [], _ => rfl
  | a :: l, h => by
    simp only [asciiOnly, List.all_cons, Bool.and_eq_true, decide_eq_true_eq] at h
    show utf8ValidAux none (a :: l) = true
    rw [utf8ValidAux, if_pos h.1]
    exact utf8Valid_of_ascii l (by simp [asciiOnly, h.2])

theorem asciiOnly_of_subset {l l' : List Nat} (hsub : ∀ b ∈ l', b ∈ l)
    (h : asciiOnly l = true) : asciiOnly l' = true := by
  simp only [asciiOnly, List.all_eq_true, decide_eq_true_eq] at h ⊢
  exact fun b hb => h b (hsub b hb)

theorem asciiOnly_take {l : List Nat} (n : Nat) (h : asciiOnly l = true) :
    asciiOnly (l.take n) = true :=
  asciiOnly_of_subset (fun _ hb => (List.take_sublist n l).subset hb) h

theorem asciiOnly_drop {l : List Nat} (n : Nat) (h : asciiOnly l = true) :
    asciiOnly (l.drop n) = true :=
  asciiOnly_of_subset (fun _ hb => (List.drop_sublist n l).subset hb) h

/-- On input whose bytes beyond position `c + 4` are all ASCII,
`read_element` cannot fail: every UTF-8 check it can reach succeeds. -/
theorem read_element_no_error (input : List Nat) (c : Nat)
    (h : asciiOnly (input.drop (c + 4)) = true) :
    ∃ x, read_element input c = .ok x := by
  simp only [read_element]
  by_cases h1 : input.length < c + 4
  · exact ⟨_, by rw [if_pos h1]⟩
  · rw [if_neg h1]
    by_cases h2 : fromBe4 ((input.drop c).take 4) = 0
    · exact ⟨_, by rw [if_pos h2]⟩
    · rw [if_neg h2]
      by_cases h3 : input.length < c + 4 + fromBe4 ((input.drop c).take 4)
      · exact ⟨_, by rw [if_pos h3]⟩
      · rw [if_neg h3]
        have hval : utf8Valid ((input.drop (c + 4)).take
            (fromBe4 ((input.drop c).take 4))) = true :=
          utf8Valid_of_ascii _ (asciiOnly_take _ h)
        exact ⟨_, by rw [if_pos hval]⟩

/-- `read_element` on a take-truncated input whose four size bytes (at the
cursor) are intact but whose element is cut off: size seen, element not. -/
theorem read_element_take_trunc (pre rest : List Nat) (j K : Nat)
    (hK : 0 < K) (hlt : K < 2 ^ 32)
    (h5 : pre.length + 4 ≤ j) (hj : j < pre.length + 4 + K)
    (hlen : j ≤ pre.length + 4 + rest.length) :
    read_element ((pre ++ (beBytes4 K ++ rest)).take j) pre.length =
      .ok (none, pre.length + 4) := by
  set p := (pre ++ (beBytes4 K ++ rest)).take j with hp
  have hplen : p.length = j := by
    rw [hp]
    simp [List.length_take, beBytes4_length]
    omega
  have hdrop : p.drop pre.length = (beBytes4 K ++ rest).take (j - pre.length) := by
    rw [hp, List.drop_take]
    congr 1
    exact List.drop_left pre _
  have hbytes : (p.drop pre.length).take 4 = beBytes4 K := by
    rw [hdrop, List.take_take]
    have : min 4 (j - pre.length) = 4 := by omega
    rw [this]
    exact List.take_left' (beBytes4_length _)
  have hsz : fromBe4 ((p.drop pre.length).take 4) = K := by
    rw [hbytes]
    exact fromBe4_beBytes4_of_lt hlt
  exact read_element_trunc (by omega) (by rw [hsz]; omega) (by rw [hsz]; omega)

/-- `read_element` on a take-truncated input that still contains the whole
element: same result as on the untruncated input. -/
theorem read_element_take_exact (pre k rest : List Nat) (j : Nat)
    (hk : k ≠ []) (hlen : k.length < 2 ^ 32) (hval : utf8Valid k = true)
    (hj : pre.length + 4 + k.length ≤ j) :
    read_element ((pre ++ (beBytes4 k.length ++ (k ++ rest))).take j) pre.length =
      .ok (some k, pre.length + 4 + k.length) := by
  have hshape : (pre ++ (beBytes4 k.length ++ (k ++ rest))).take j =
      pre ++ (beBytes4 k.length ++ (k ++ rest.take (j - pre.length - 4 - k.length))) := by
    rw [List.take_append_eq_append_take, List.take_of_length_le (by omega),
      List.take_append_eq_append_take, List.take_of_length_le (by simp [beBytes4_length]; omega),
      List.take_append_eq_append_take, List.take_of_length_le (by simp [beBytes4_length]; omega)]
    simp [beBytes4_length]
  rw [hshape]
  exact read_element_exact pre k _ hk hlen hval

theorem parse_request_take_prefix_set (key value : List Nat) (j : Nat)
    (hwf : wfRequest (.set key value) = true)
    (hascii : asciiRequest (.set key value) = true)
    (hj : j < (serialize_request (.set key value)).length) :
    parse_request ((serialize_request (.set key value)).take j) = .ok none := by
  simp only [wfRequest, Bool.and_eq_true] at hwf
  obtain ⟨hkne, hkval, hklt⟩ := wfStr_spec hwf.1
  obtain ⟨hvne, hvval, hvlt⟩ := wfStr_spec hwf.2
  simp only [asciiRequest, Bool.and_eq_true] at hascii
  have hK : 0 < key.length := List.length_pos.mpr hkne
  have hV : 0 < value.length := List.length_pos.mpr hvne
  simp only [serialize_request, List.length_cons, List.length_append,
    beBytes4_length] at hj
  have henc : serialize_request (.set key value) =
      2 :: (beBytes4 key.length ++ (key ++ (beBytes4 value.length ++ value))) := by
    simp [serialize_request]
  rw [henc]
  rcases Nat.eq_zero_or_pos j with hj0 | hjpos
  · subst hj0
    simp [parse_request]
  obtain ⟨j', rfl⟩ : ∃ j', j = j' + 1 := ⟨j - 1, by omega⟩
  by_cases hlt5 : j' + 1 < 5
  · have hre1 : read_element
        ((2 :: (beBytes4 key.length ++ (key ++ (beBytes4 value.length ++ value)))).take (j' + 1)) 1 =
        .ok (none, 1) := by
      apply read_element_short
      simp [List.length_take, beBytes4_length]
      omega
    simp only [List.take_succ_cons] at hre1 ⊢
    simp [parse_request, hre1]
  by_cases hltK : j' + 1 < 5 + key.length
  · -- key size bytes present, key itself truncated
    have hre1 := read_element_take_trunc [2] (key ++ (beBytes4 value.length ++ value))
      (j' + 1) key.length hK hklt (by simp; omega) (by simp; omega)
      (by simp [beBytes4_length]; omega)
    simp only [List.singleton_append, List.length_singleton] at hre1
    by_cases hlt9 : j' + 1 < 9
    · have hre2 : read_element
          ((2 :: (beBytes4 key.length ++ (key ++ (beBytes4 value.length ++ value)))).take (j' + 1))
          (1 + 4) = .ok (none, 1 + 4) := by
        apply read_element_short
        simp [List.length_take, beBytes4_length]
        omega
      simp only [List.take_succ_cons] at hre1 hre2 ⊢
      simp [parse_request, hre1, hre2]
    · -- the second read lands inside the ASCII key and cannot fail
      have hdrop9 :
          (((2 :: (beBytes4 key.length ++ (key ++ (beBytes4 value.length ++ value)))).take (j' + 1)).drop 9)
          = (key.drop 4).take (j' + 1 - 9) := by
        rw [List.drop_take]
        have hd : (2 :: (beBytes4 key.length ++ (key ++ (beBytes4 value.length ++ value)))).drop 9 =
            key.drop 4 ++ (beBytes4 value.length ++ value) := by
          rw [show (2 :: (beBytes4 key.length ++ (key ++ (beBytes4 value.length ++ value)))).drop 9 =
            (beBytes4 key.length ++ (key ++ (beBytes4 value.length ++ value))).drop 8 from rfl]
          rw [List.drop_append_eq_append_drop, List.drop_append_eq_append_drop]
          rw [List.drop_eq_nil_of_le (by simp [beBytes4_length])]
          rw [beBytes4_length]
          have h1 : (8 : Nat) - 4 = 4 := rfl
          have h2 : 4 - key.length = 0 := by omega
          rw [h1, h2, List.drop_zero, List.nil_append]
        rw [hd]
        exact List.take_append_of_le_length (by simp [List.length_drop]; omega)
      have hasc : asciiOnly
          ((((2 :: (beBytes4 key.length ++ (key ++ (beBytes4 value.length ++ value)))).take (j' + 1))).drop
            (1 + 4 + 4)) = true := by
        rw [show (1 + 4 + 4 : Nat) = 9 from rfl, hdrop9]
        exact asciiOnly_take _ (asciiOnly_drop _ hascii.1)
      obtain ⟨x, hre2⟩ := read_element_no_error _ (1 + 4) hasc
      obtain ⟨r2, c2⟩ := x
      simp only [List.take_succ_cons] at hre1 hre2 ⊢
      simp [parse_request, hre1, hre2]
  by_cases hlt9K : j' + 1 < 9 + key.length
  · -- whole key present, value size bytes truncated
    have hre1 := read_element_take_exact [2] key (beBytes4 value.length ++ value)
      (j' + 1) hkne hklt hkval (by simp; omega)
    simp only [List.singleton_append, List.length_singleton] at hre1
    have hre2 : read_element
        ((2 :: (beBytes4 key.length ++ (key ++ (beBytes4 value.length ++ value)))).take (j' + 1))
        (1 + 4 + key.length) = .ok (none, 1 + 4 + key.length) := by
      apply read_element_short
      simp [List.length_take, beBytes4_length]
      omega
    simp only [List.take_succ_cons] at hre1 hre2 ⊢
    simp [parse_request, hre1, hre2]
  · -- whole key and value size present, value truncated
    have hre1 := read_element_take_exact [2] key (beBytes4 value.length ++ value)
      (j' + 1) hkne hklt hkval (by simp; omega)
    simp only [List.singleton_append, List.length_singleton] at hre1
    have hre2 := read_element_take_trunc (2 :: (beBytes4 key.length ++ key)) value
      (j' + 1) value.length hV hvlt
      (by simp [beBytes4_length]; omega) (by simp [beBytes4_length]; omega)
      (by simp [beBytes4_length]; omega)
    have hshape : (2 :: (beBytes4 key.length ++ key)) ++ (beBytes4 value.length ++ value) =
        2 :: (beBytes4 key.length ++ (key ++ (beBytes4 value.length ++ value))) := by
      simp [List.append_assoc]
    have hclen : (2 :: (beBytes4 key.length ++ key)).length = 1 + 4 + key.length := by
      simp [beBytes4_length]
      omega
    rw [hshape, hclen] at hre2
    simp only [List.take_succ_cons] at hre1 hre2 ⊢
    simp [parse_request, hre1, hre2]

/-- Decoding a strict prefix of the encoding of a wellformed, ASCII request
yields "incomplete", never an error. -/
theorem parse_request_take_prefix (r : Request) (j : Nat)
    (hwf : wfRequest r = true) (hascii : asciiRequest r = true)
    (hj : j < (serialize_request r).length) :
    parse_request ((serialize_request r).take j) = .ok none := by
  cases r with
  | flush =>
    simp only [serialize_request, List.length_cons, List.length_nil] at hj
    have hj0 : j = 0 := by omega
    subst hj0
    simp [parse_request]
  | get key =>
    obtain ⟨hne, hval, hlt⟩ := wfStr_spec hwf
    have hK : 0 < key.length := List.length_pos.mpr hne
    simp only [serialize_request, List.length_cons, List.length_append,
      beBytes4_length] at hj
    rcases Nat.eq_zero_or_pos j with hj0 | hjpos
    · subst hj0
      simp [parse_request]
    · obtain ⟨j', rfl⟩ : ∃ j', j = j' + 1 := ⟨j - 1, by omega⟩
      have hcons : (serialize_request (.get key)).take (j' + 1) =
          1 :: (beBytes4 key.length ++ key).take j' := by
        simp [serialize_request]
      by_cases h5 : j' + 1 < 5
      · have hre : read_element ((serialize_request (.get key)).take (j' + 1)) 1 =
            .ok (none, 1) := by
          apply read_element_short
          simp [hcons, List.length_take, beBytes4_length]
          omega
        rw [hcons] at hre ⊢
        simp [parse_request, hre]
      · have hre := read_element_take_trunc [1] key (j' + 1) key.length hK hlt
          (by simp; omega) (by simp; omega) (by simp; omega)
        simp only [List.singleton_append, List.length_singleton] at hre
        have hgs : serialize_request (.get key) = 1 :: (beBytes4 key.length ++ key) := by
          simp [serialize_request]
        rw [hgs]
        rw [show (1 :: (beBytes4 key.length ++ key)).take (j' + 1) =
          1 :: (beBytes4 key.length ++ key).take j' by simp]
        rw [show (1 : Nat) + 4 = 5 from rfl] at hre
        have hcons' : (1 :: (beBytes4 key.length ++ key)).take (j' + 1) =
            1 :: (beBytes4 key.length ++ key).take j' := by simp
        rw [hcons'] at hre
        simp [parse_request, hre]
  | delete key =>
    obtain ⟨hne, hval, hlt⟩ := wfStr_spec hwf
    have hK : 0 < key.length := List.length_pos.mpr hne
    simp only [serialize_request, List.length_cons, List.length_append,
      beBytes4_length] at hj
    rcases Nat.eq_zero_or_pos j with hj0 | hjpos
    · subst hj0
      simp [parse_request]
    · obtain ⟨j', rfl⟩ : ∃ j', j = j' + 1 := ⟨j - 1, by omega⟩
      have hcons : (serialize_request (.delete key)).take (j' + 1) =
          3 :: (beBytes4 key.length ++ key).take j' := by
        simp [serialize_request]
      by_cases h5 : j' + 1 < 5
      · have hre : read_element ((serialize_request (.delete key)).take (j' + 1)) 1 =
            .ok (none, 1) := by
          apply read_element_short
          simp [hcons, List.length_take, beBytes4_length]
          omega
        rw [hcons] at hre ⊢
        simp [parse_request, hre]
      · have hre := read_element_take_trunc [3] key (j' + 1) key.length hK hlt
          (by simp; omega) (by simp; omega) (by simp; omega)
        simp only [List.singleton_append, List.length_singleton] at hre
        rw [show (1 : Nat) + 4 = 5 from rfl] at hre
        have hcons' : (3 :: (beBytes4 key.length ++ key)).take (j' + 1) =
            3 :: (beBytes4 key.length ++ key).take j' := by simp
        rw [hcons'] at hre
        rw [hcons]
        simp [parse_request, hre]
  | set key value =>
    exact parse_request_take_prefix_set key value j hwf hascii hj

/-! ## Claims about the wire codec -/

/-- C1 counterexample: the request `Delete("")` (empty key) encodes to
`[3,0,0,0,0]`, whose decoding is "incomplete" — not a frame equal to the
request with all five bytes consumed, as the claim demands for every
request. -/
theorem delete_empty_key_breaks_round_trip :
    parse_request (serialize_request (.delete [])) = .ok none ∧
      ¬ parse_request (serialize_request (.delete [])) =
        .ok (some (.delete [], (serialize_request (.delete [])).length)) := by
  decide

/-- C1 (amended): for every request whose string fields are nonempty valid
UTF-8 and shorter than `2^32` bytes, decoding the encoding yields exactly
the request with a consumed-byte count equal to the encoding's length. -/
theorem request_round_trip (r : Request) (h : wfRequest r = true) :
    parse_request (serialize_request r) =
      .ok (some (r, (serialize_request r).length)) := by
  simpa using parse_request_exact r [] h

/-- C1 witness: the round trip at `Set("a", "bc")`. -/
theorem request_round_trip_witness :
    parse_request (serialize_request (.set [97] [98, 99])) =
      .ok (some (.set [97] [98, 99], (serialize_request (.set [97] [98, 99])).length)) :=
  request_round_trip (.set [97] [98, 99]) (by decide)

/-- C5 counterexample: opcode 1, length 5, but only one value byte — the
value is truncated, yet `parse_response` yields the complete frame
`Get(None)` instead of "incomplete". -/
theorem truncated_get_value_parses_as_none :
    parse_response [1, 0, 0, 0, 5, 120] = .ok (some (.get none)) ∧
      parse_response [1, 0, 0, 0, 5, 120] ≠ .ok none := by
  decide

/-- C5 (amended): on opcode 1 the response parser is greedy — no four
length bytes yields `Get(None)`; a nonzero length followed by that many
bytes of valid UTF-8 yields `Get(Some v)`; but a nonzero length with a
truncated value also yields the frame `Get(None)` (never "incomplete"). -/
theorem response_parser_greedy_get :
    (∀ tail : List Nat, tail.length < 4 →
      parse_response (1 :: tail) = .ok (some (.get none))) ∧
    (∀ value rest : List Nat, value ≠ [] → value.length < 2 ^ 32 →
      utf8Valid value = true →
      parse_response (1 :: (beBytes4 value.length ++ (value ++ rest))) =
        .ok (some (.get (some value)))) ∧
    (∀ (b₁ b₂ b₃ b₄ : Nat) (tail : List Nat),
      0 < fromBe4 [b₁, b₂, b₃, b₄] → tail.length < fromBe4 [b₁, b₂, b₃, b₄] →
      parse_response (1 :: b₁ :: b₂ :: b₃ :: b₄ :: tail) =
        .ok (some (.get none))) := by
  refine ⟨?_, ?_, ?_⟩
  · intro tail hlen
    have hre : read_element (1 :: tail) 1 = .ok (none, 1) :=
      read_element_short (by simp; omega)
    simp [parse_response, hre]
  · intro value rest hne hlt hval
    have hre := read_element_exact [1] value rest hne hlt hval
    simp only [List.singleton_append, List.length_singleton] at hre
    simp [parse_response, hre]
  · intro b₁ b₂ b₃ b₄ tail h0 htail
    have hd : ((1 :: b₁ :: b₂ :: b₃ :: b₄ :: tail).drop 1).take 4 = [b₁, b₂, b₃, b₄] := rfl
    have hre : read_element (1 :: b₁ :: b₂ :: b₃ :: b₄ :: tail) 1 = .ok (none, 1 + 4) := by
      refine read_element_trunc ?_ ?_ ?_
      · simp only [List.length_cons]
        omega
      · rw [hd]
        omega
      · rw [hd]
        simp only [List.length_cons]
        omega
    simp [parse_response, hre]

/-- C5 witness: the three greedy cases at concrete inputs. -/
theorem response_parser_greedy_get_witness :
    parse_response [1, 9] = .ok (some (.get none)) ∧
      parse_response [1, 0, 0, 0, 2, 97, 98] = .ok (some (.get (some [97, 98]))) ∧
      parse_response [1, 0, 0, 0, 3, 120] = .ok (some (.get none)) :=
  ⟨response_parser_greedy_get.1 [9] (by decide),
    response_parser_greedy_get.2.1 [97, 98] [] (by decide) (by decide) (by decide),
    response_parser_greedy_get.2.2 0 0 0 3 [120] (by decide) (by decide)⟩

/-- C6 counterexample: in `[2, 0,0,0,1, 128, 0,0,0,0]` the mandatory value
length field decodes to zero, yet the parser reports the fatal UTF-8 error
it hits on the key first — not "need more bytes". -/
theorem zero_length_field_after_bad_key_is_fatal :
    parse_request [2, 0, 0, 0, 1, 128, 0, 0, 0, 0] = .error .utf8Error ∧
      parse_request [2, 0, 0, 0, 1, 128, 0, 0, 0, 0] ≠ .ok none := by
  decide

/-- C6 (amended): opcode 0 or any opcode above 4 is "need more bytes" on
every input; and when the first length field the parser reads decodes to
zero (opcodes 1, 2, 3 with the four bytes present), the parser likewise
reports "need more bytes" — the fatal error can only come from a string
field parsed before the zero length field is reached. -/
theorem invalid_opcode_and_zero_length_incomplete :
    (∀ (op : Nat) (tail : List Nat), op = 0 ∨ 5 ≤ op →
      parse_request (op :: tail) = .ok none) ∧
    (∀ (op : Nat) (tail : List Nat), op = 1 ∨ op = 2 ∨ op = 3 →
      5 ≤ (op :: tail).length →
      fromBe4 (tail.take 4) = 0 →
      parse_request (op :: tail) = .ok none) := by
  constructor
  · intro op tail hop
    simp only [parse_request, List.head?_cons]
    rw [if_neg (by omega), if_neg (by omega), if_neg (by omega), if_neg (by omega)]
  · intro op tail hop hlen h0
    have hre : read_element (op :: tail) 1 = .ok (none, 1) := by
      apply read_element_zero
      · simpa using hlen
      · simpa using h0
    rcases hop with rfl | rfl | rfl <;> simp [parse_request, hre]

/-- C6 witness: an unknown opcode and a zero key length at concrete
inputs. -/
theorem invalid_opcode_and_zero_length_incomplete_witness :
    parse_request [7, 1, 2] = .ok none ∧
      parse_request [1, 0, 0, 0, 0, 55] = .ok none :=
  ⟨invalid_opcode_and_zero_length_incomplete.1 7 [1, 2] (by decide),
    invalid_opcode_and_zero_length_incomplete.2 1 [0, 0, 0, 0, 55] (by decide)
      (by decide) (by decide)⟩

/-! ## Connection-loop support lemmas -/

/-- Concatenation of the encodings of a request list. -/
def encodeAll (rs : List Request) : List Nat :=
  (rs.map serialize_request).flatten

theorem encodeAll_nil : encodeAll [] = [] := rfl

theorem encodeAll_cons (r : Request) (rs : List Request) :
    encodeAll (r :: rs) = serialize_request r ++ encodeAll rs := rfl

theorem serialize_request_length_pos (r : Request) :
    0 < (serialize_request r).length := by
  cases r <;> simp [serialize_request]

theorem copyWithin_length (buffer : List Nat) (n cursor : Nat)
    (hc : cursor ≤ buffer.length) :
    (copyWithin buffer n cursor).length = buffer.length := by
  simp [copyWithin, List.length_take, List.length_drop]
  omega

theorem copyWithin_take (buffer : List Nat) (n cursor : Nat)
    (hn : n ≤ cursor) (hc : cursor ≤ buffer.length) :
    (copyWithin buffer n cursor).take (cursor - n) = (buffer.take cursor).drop n := by
  simp only [copyWithin]
  rw [List.take_append_eq_append_take]
  have hlen : ((buffer.drop n).take (cursor - n)).length = cursor - n := by
    simp [List.length_take, List.length_drop]
    omega
  rw [List.take_of_length_le (le_of_eq hlen), hlen, Nat.sub_self, List.take_zero,
    List.append_nil, List.drop_take]

theorem writeBytes_length (buffer : List Nat) (cursor : Nat) (bytes : List Nat)
    (h : cursor + bytes.length ≤ buffer.length) :
    (writeBytes buffer cursor bytes).length = buffer.length := by
  simp [writeBytes, List.length_take, List.length_drop]
  omega

theorem writeBytes_take (buffer : List Nat) (cursor : Nat) (bytes : List Nat)
    (h : cursor ≤ buffer.length) :
    (writeBytes buffer cursor bytes).take (cursor + bytes.length) =
      buffer.take cursor ++ bytes := by
  simp only [writeBytes]
  have h1 : (buffer.take cursor ++ bytes).length = cursor + bytes.length := by
    simp [List.length_take]
    omega
  rw [List.take_append_of_le_length (by rw [h1]), List.take_of_length_le (by rw [h1])]

theorem append_eq_append_split_left {p s e rest : List Nat}
    (h : p ++ s = e ++ rest) (hle : p.length ≤ e.length) :
    p = e.take p.length ∧ s = e.drop p.length ++ rest := by
  constructor
  · have h1 : (p ++ s).take p.length = p := List.take_left p s
    rw [h, List.take_append_of_le_length hle] at h1
    exact h1.symm
  · have h1 : (p ++ s).drop p.length = s := List.drop_left p s
    rw [h, List.drop_append_of_le_length hle] at h1
    exact h1.symm

theorem append_eq_append_split_right {p s e rest : List Nat}
    (h : p ++ s = e ++ rest) (hle : e.length ≤ p.length) :
    p = e ++ p.drop e.length ∧ rest = p.drop e.length ++ s := by
  have hp : p = e ++ p.drop e.length := by
    have h1 : (p ++ s).take e.length = p.take e.length :=
      List.take_append_of_le_length hle
    rw [h, List.take_left] at h1
    conv_lhs => rw [← List.take_append_drop e.length p]
    rw [← h1]
  refine ⟨hp, ?_⟩
  have h2 : (e ++ rest).drop e.length = rest := List.drop_left e rest
  rw [← h, List.drop_append_of_le_length hle] at h2
  exact h2.symm

theorem runRequests_cons (db : Db) (r : Request) (rs : List Request) :
    runRequests db (r :: rs) =
      ((runRequests (applyRequest db r).1 rs).1,
        (applyRequest db r).2 :: (runRequests (applyRequest db r).1 rs).2) := by
  simp [runRequests]

/-- Draining invariant for `handle_connection`: when the bytes already
buffered continue into a stream of wellformed ASCII requests that each fit
in the buffer (which therefore never grows), the loop answers every request
in order and returns cleanly once the stream is exhausted. -/
theorem handle_connection_drain (fuel : Nat) :
    ∀ (rs : List Request) (conn : Conn) (db : Db) (buffer : List Nat)
      (cursor : Nat) (maxB : Nat) (out : List Response) (trace : List (Nat × Nat)),
      conn.writeBudget = none →
      (∀ k ∈ conn.schedule, 0 < k) →
      (∀ r ∈ rs, wfRequest r = true ∧ asciiRequest r = true ∧
        (serialize_request r).length ≤ buffer.length) →
      buffer.length < maxB →
      cursor ≤ buffer.length →
      buffer.take cursor ++ conn.stream = encodeAll rs →
      2 * conn.stream.length + cursor + 2 ≤ fuel →
      ∃ tr, handle_connection fuel conn db buffer cursor maxB out trace =
        some ⟨out ++ (runRequests db rs).2, .ok, (runRequests db rs).1, tr⟩ := by
  induction fuel with
  | zero =>
    intro rs conn db buffer cursor maxB out trace _ _ _ _ _ _ hfuel
    omega
  | succ fuel ih =>
    intro rs conn db buffer cursor maxB out trace hbudget hsched hfit hmax hcur hinv hfuel
    rcases rs with _ | ⟨r, rs'⟩
    · -- no requests left: the stream is exhausted and the loop returns Ok
      rw [encodeAll_nil] at hinv
      obtain ⟨hp0, hs0⟩ := List.append_eq_nil.mp hinv
      have hc0 : cursor = 0 := by
        have hl := congrArg List.length hp0
        simp only [List.length_take, List.length_nil] at hl
        omega
      subst hc0
      have hslen : conn.stream.length = 0 := by rw [hs0]; rfl
      simp only [handle_connection, List.take_zero]
      rw [show parse_request [] = .ok none from rfl]
      simp only [ge_iff_le]
      rw [if_neg (by omega)]
      by_cases hlen0 : buffer.length = 0
      · simp [connRead, hslen, hlen0, runRequests]
      · simp [connRead, hslen, hlen0, runRequests]
    · -- at least one request outstanding
      obtain ⟨hwfr, hasciir, hfitr⟩ := hfit r (List.mem_cons_self r rs')
      rw [encodeAll_cons] at hinv
      have hplen : (buffer.take cursor).length = cursor := by
        simp only [List.length_take]
        omega
      have hencpos : 0 < (serialize_request r).length := serialize_request_length_pos r
      rcases Nat.lt_or_ge cursor (serialize_request r).length with hlt | hge
      · -- the buffer holds a strict prefix of the next request: read more
        obtain ⟨hpfx, _⟩ := append_eq_append_split_left hinv (by omega)
        rw [hplen] at hpfx
        have hparse : parse_request (buffer.take cursor) = .ok none := by
          rw [hpfx]
          exact parse_request_take_prefix r cursor hwfr hasciir hlt
        have hstreampos : 0 < conn.stream.length := by
          have hl := congrArg List.length hinv
          simp only [List.length_append, hplen] at hl
          omega
        have hlimpos : 0 < conn.schedule.headD conn.stream.length := by
          cases hc : conn.schedule with
          | nil => simpa using hstreampos
          | cons k ks => simpa using hsched k (by rw [hc]; exact List.mem_cons_self k ks)
        have hn : 0 < min (buffer.length - cursor)
            (min (conn.schedule.headD conn.stream.length) conn.stream.length) := by
          omega
        simp only [handle_connection, hparse, ge_iff_le]
        rw [if_neg (by omega)]
        simp only [if_neg (show ¬ buffer.length = cursor by omega), connRead]
        rw [if_neg (by omega)]
        -- the recursive call after the read
        set n := min (buffer.length - cursor)
          (min (conn.schedule.headD conn.stream.length) conn.stream.length) with hndef
        have hbytes : (conn.stream.take n).length = n := by
          simp only [List.length_take]
          omega
        have hwb : (writeBytes buffer cursor (conn.stream.take n)).length = buffer.length :=
          writeBytes_length _ _ _ (by omega)
        have htake : (writeBytes buffer cursor (conn.stream.take n)).take (cursor + n) =
            buffer.take cursor ++ conn.stream.take n := by
          have := writeBytes_take buffer cursor (conn.stream.take n) (by omega)
          rwa [hbytes] at this
        obtain ⟨tr, htr⟩ := ih (r :: rs')
          ⟨conn.stream.drop n, conn.schedule.drop 1, conn.writeBudget⟩ db
          (writeBytes buffer cursor (conn.stream.take n)) (cursor + n) maxB out
          (trace ++ [(cursor, buffer.length)])
          hbudget
          (fun k hk => hsched k (List.mem_of_mem_drop hk))
          (by rw [hwb]; exact hfit)
          (by rw [hwb]; exact hmax)
          (by rw [hwb]; omega)
          (by
            rw [htake, List.append_assoc, List.take_append_drop]
            rw [← encodeAll_cons] at hinv
            exact hinv)
          (by simp only [List.length_drop]; omega)
        exact ⟨tr, htr⟩
      · -- a full request is buffered: answer it and continue
        obtain ⟨hfull, hrest⟩ := append_eq_append_split_right hinv (by omega)
        have hparse : parse_request (buffer.take cursor) =
            .ok (some (r, (serialize_request r).length)) := by
          rw [hfull]
          exact parse_request_exact r _ hwfr
        have hcw : connWrite conn = (true, conn) := by
          simp [connWrite, hbudget]
        rcases happ : applyRequest db r with ⟨db1, resp⟩
        have hcwl : (copyWithin buffer (serialize_request r).length cursor).length =
            buffer.length := copyWithin_length _ _ _ hcur
        have hcwt : (copyWithin buffer (serialize_request r).length cursor).take
            (cursor - (serialize_request r).length) =
            (buffer.take cursor).drop (serialize_request r).length :=
          copyWithin_take _ _ _ hge hcur
        obtain ⟨tr, htr⟩ := ih rs' conn db1
          (copyWithin buffer (serialize_request r).length cursor)
          (cursor - (serialize_request r).length) maxB (out ++ [resp])
          (trace ++ [(cursor, buffer.length)])
          hbudget hsched
          (by rw [hcwl]; exact fun x hx => hfit x (List.mem_cons_of_mem r hx))
          (by rw [hcwl]; exact hmax)
          (by rw [hcwl]; omega)
          (by rw [hcwt, ← hrest])
          (by omega)
        refine ⟨tr, ?_⟩
        simp only [handle_connection, hparse, happ, hcw]
        rw [if_pos hge]
        rw [htr]
        simp [runRequests_cons, happ, List.append_assoc]

/-! ## Claims about the connection and client loops -/

set_option maxRecDepth 10000

/-- C2 counterexample: two valid GET requests whose 6-byte encodings exceed
the 2-byte initial buffer (cap 8): the handler answers the first request and
then dies with "too much data" — one response for two requests, no clean
return. -/
theorem two_requests_one_response :
    (run_server 20 ⟨serialize_request (.get [97]) ++ serialize_request (.get [97]),
        [], none⟩ [] 2 8).map RunOut.obs
      = some ([.get none], .tooMuchData, []) := by
  decide

/-- C2 (amended): for every list of requests with nonempty ASCII string
fields, each encoding no longer than the initial buffer, and an initial
buffer smaller than the cap, the handler — under any positive read
schedule — emits exactly one response per request, in request order, each
produced before the next request is parsed, and returns cleanly. -/
theorem server_emits_one_response_per_request
    (rs : List Request) (sched : List Nat) (db : Db) (initB maxB : Nat)
    (hwf : ∀ r ∈ rs, wfRequest r = true ∧ asciiRequest r = true ∧
      (serialize_request r).length ≤ initB)
    (hsched : ∀ k ∈ sched, 0 < k)
    (hmax : initB < maxB) :
    ∃ tr, run_server (2 * (encodeAll rs).length + 2)
        ⟨encodeAll rs, sched, none⟩ db initB maxB =
      some ⟨(runRequests db rs).2, .ok, (runRequests db rs).1, tr⟩ := by
  have h := handle_connection_drain (2 * (encodeAll rs).length + 2) rs
    ⟨encodeAll rs, sched, none⟩ db (List.replicate initB 0) 0 maxB [] []
    rfl hsched (by simpa using hwf) (by simpa using hmax) (by simp) (by simp)
    (by simp)
  simpa [run_server] using h

/-- C2 witness: the two SETs of the source's own integration scenario. -/
theorem server_emits_one_response_per_request_witness :
    ∃ tr, run_server (2 * (encodeAll [.set [97] [98], .set [99] [100]]).length + 2)
        ⟨encodeAll [.set [97] [98], .set [99] [100]], [], none⟩ [] 32 93 =
      some ⟨[.set, .set], .ok, [([97], [98]), ([99], [100])], tr⟩ := by
  have h := server_emits_one_response_per_request
    [.set [97] [98], .set [99] [100]] [] [] 32 93
    (by decide) (by simp) (by omega)
  simpa [runRequests, applyRequest, dbInsert] using h

/-- C4 counterexample: `[2,0,0,0,6, 0,0,0,1, 195]` is a strict prefix of the
valid Set request with key `"\0\0\0\1é"` and value `"x"`, yet decoding it is
the fatal `Malformed` (UTF-8) error, not `Incomplete`: the parser misreads
key bytes as a value length and checks a lone UTF-8 continuation byte. -/
theorem nonascii_prefix_parses_malformed :
    (serialize_request (.set [0, 0, 0, 1, 195, 169] [120])).take 10 =
        [2, 0, 0, 0, 6, 0, 0, 0, 1, 195] ∧
      wfRequest (.set [0, 0, 0, 1, 195, 169] [120]) = true ∧
      10 < (serialize_request (.set [0, 0, 0, 1, 195, 169] [120])).length ∧
      parse_request [2, 0, 0, 0, 6, 0, 0, 0, 1, 195] = .error .utf8Error := by
  decide

/-- C4 (amended): for requests whose string fields are ASCII, decoding any
strict prefix of a valid request yields `Incomplete`, never `Malformed`;
consequently, for streams of such requests that fit the initial buffer, the
handler's observable behaviour (responses, result, final store) under any
positive read schedule equals its behaviour with the whole stream delivered
by one-shot reads. -/
theorem ascii_chunking_invariance :
    (∀ (r : Request) (j : Nat), wfRequest r = true → asciiRequest r = true →
      j < (serialize_request r).length →
      parse_request ((serialize_request r).take j) = .ok none) ∧
    (∀ (rs : List Request) (sched : List Nat) (db : Db) (initB maxB : Nat),
      (∀ r ∈ rs, wfRequest r = true ∧ asciiRequest r = true ∧
        (serialize_request r).length ≤ initB) →
      (∀ k ∈ sched, 0 < k) →
      initB < maxB →
      (run_server (2 * (encodeAll rs).length + 2) ⟨encodeAll rs, sched, none⟩
          db initB maxB).map RunOut.obs =
        (run_server (2 * (encodeAll rs).length + 2) ⟨encodeAll rs, [], none⟩
          db initB maxB).map RunOut.obs) := by
  constructor
  · exact parse_request_take_prefix
  · intro rs sched db initB maxB hwf hsched hmax
    obtain ⟨tr₁, h₁⟩ := handle_connection_drain (2 * (encodeAll rs).length + 2) rs
      ⟨encodeAll rs, sched, none⟩ db (List.replicate initB 0) 0 maxB [] []
      rfl hsched (by simpa using hwf) (by simpa using hmax) (by simp) (by simp)
      (by simp)
    obtain ⟨tr₂, h₂⟩ := handle_connection_drain (2 * (encodeAll rs).length + 2) rs
      ⟨encodeAll rs, [], none⟩ db (List.replicate initB 0) 0 maxB [] []
      rfl (by simp) (by simpa using hwf) (by simpa using hmax) (by simp) (by simp)
      (by simp)
    simp only [run_server]
    rw [h₁, h₂]
    rfl

/-- C4 witness: a concrete prefix is incomplete, and a 3-chunk delivery of
two SETs behaves like the one-shot delivery. -/
theorem ascii_chunking_invariance_witness :
    parse_request ((serialize_request (.set [97] [98])).take 7) = .ok none ∧
      (run_server (2 * (encodeAll [.set [97] [98], .set [99] [100]]).length + 2)
          ⟨encodeAll [.set [97] [98], .set [99] [100]], [5, 4, 11], none⟩ [] 32 93).map
          RunOut.obs =
        (run_server (2 * (encodeAll [.set [97] [98], .set [99] [100]]).length + 2)
          ⟨encodeAll [.set [97] [98], .set [99] [100]], [], none⟩ [] 32 93).map
          RunOut.obs :=
  ⟨ascii_chunking_invariance.1 (.set [97] [98]) 7 (by decide) (by decide) (by decide),
    ascii_chunking_invariance.2 [.set [97] [98], .set [99] [100]] [5, 4, 11] [] 32 93
      (by decide) (by decide) (by omega)⟩

/-- A successful `read_element` never places the cursor past the input. -/
theorem read_element_ok_some_le {input : List Nat} {c : Nat} {e : List Nat} {c' : Nat}
    (h : read_element input c = .ok (some e, c')) : c' ≤ input.length := by
  simp only [read_element] at h
  split_ifs at h with h1 h2 h3 h4
  · simp at h
  · simp at h
  · simp at h
  · simp only [Except.ok.injEq, Prod.mk.injEq] at h
    omega

/-- A parsed frame never consumes more bytes than the input holds. -/
theorem parse_request_n_le {input : List Nat} {r : Request} {n : Nat}
    (h : parse_request input = .ok (some (r, n))) : n ≤ input.length := by
  cases input with
  | nil => simp [parse_request] at h
  | cons op t =>
    simp only [parse_request, List.head?_cons] at h
    split_ifs at h with h1 h2 h3 h4
    · rcases hre : read_element (op :: t) 1 with e | ⟨oe, c⟩
      · rw [hre] at h
        simp at h
      · rw [hre] at h
        cases oe with
        | none => simp at h
        | some k =>
          simp only [Except.ok.injEq, Option.some.injEq, Prod.mk.injEq] at h
          rw [← h.2]
          exact read_element_ok_some_le hre
    · rcases hre : read_element (op :: t) 1 with e | ⟨oe, c⟩
      · rw [hre] at h
        simp at h
      · rw [hre] at h
        simp only [] at h
        rcases hre2 : read_element (op :: t) c with e2 | ⟨oe2, c2⟩
        · rw [hre2] at h
          simp at h
        · rw [hre2] at h
          cases oe with
          | none => cases oe2 <;> simp at h
          | some k =>
            cases oe2 with
            | none => simp at h
            | some v =>
              simp only [Except.ok.injEq, Option.some.injEq, Prod.mk.injEq] at h
              rw [← h.2]
              exact read_element_ok_some_le hre2
    · rcases hre : read_element (op :: t) 1 with e | ⟨oe, c⟩
      · rw [hre] at h
        simp at h
      · rw [hre] at h
        cases oe with
        | none => simp at h
        | some k =>
          simp only [Except.ok.injEq, Option.some.injEq, Prod.mk.injEq] at h
          rw [← h.2]
          exact read_element_ok_some_le hre
    · simp only [Except.ok.injEq, Option.some.injEq, Prod.mk.injEq] at h
      simp [← h.2]
    · simp at h

/-- Every `(cursor, buffer length)` pair that `handle_connection` records
satisfies `cursor ≤ length` and `length ≤ B`, for any bound `B` at least
the starting length and at least `2*(maxBufferSize - 1)` (the largest value
one uncapped doubling of a length below the cap can produce). -/
theorem handle_connection_trace_bound (fuel : Nat) :
    ∀ (conn : Conn) (db : Db) (buffer : List Nat) (cursor maxB : Nat)
      (out : List Response) (trace : List (Nat × Nat)) (ru : RunOut) (B : Nat),
      cursor ≤ buffer.length →
      buffer.length ≤ B →
      2 * (maxB - 1) ≤ B →
      (∀ e ∈ trace, e.1 ≤ e.2 ∧ e.2 ≤ B) →
      handle_connection fuel conn db buffer cursor maxB out trace = some ru →
      ∀ e ∈ ru.trace, e.1 ≤ e.2 ∧ e.2 ≤ B := by
  induction fuel with
  | zero =>
    intro conn db buffer cursor maxB out trace ru B _ _ _ _ hrun
    simp [handle_connection] at hrun
  | succ fuel ih =>
    intro conn db buffer cursor maxB out trace ru B hcur hlen hB htrace hrun
    simp only [handle_connection] at hrun
    have htrace' : ∀ e ∈ trace ++ [(cursor, buffer.length)], e.1 ≤ e.2 ∧ e.2 ≤ B := by
      intro e he
      rcases List.mem_append.mp he with he | he
      · exact htrace e he
      · simp only [List.mem_singleton] at he
        subst he
        exact ⟨hcur, hlen⟩
    rcases hp : parse_request (buffer.take cursor) with pe | por
    · rw [hp] at hrun
      simp only [Option.some.injEq] at hrun
      subst hrun
      exact htrace'
    · rw [hp] at hrun
      cases por with
      | some pr =>
        obtain ⟨req, n⟩ := pr
        have hn : n ≤ cursor := by
          have h1 := parse_request_n_le hp
          have h2 : (buffer.take cursor).length = cursor := by
            simp only [List.length_take]
            omega
          omega
        rcases hcw : connWrite conn with ⟨okw, conn'⟩
        rw [hcw] at hrun
        cases okw
        · simp only [Option.some.injEq] at hrun
          subst hrun
          exact htrace'
        · simp only [] at hrun
          rw [if_pos hn] at hrun
          refine ih _ _ _ _ _ _ _ _ _ ?_ ?_ hB htrace' hrun
          · rw [copyWithin_length _ _ _ hcur]
            omega
          · rw [copyWithin_length _ _ _ hcur]
            exact hlen
      | none =>
        simp only [] at hrun
        by_cases hM : buffer.length ≥ maxB
        · rw [if_pos hM] at hrun
          simp only [Option.some.injEq] at hrun
          subst hrun
          exact htrace'
        · rw [if_neg hM] at hrun
          by_cases hR : buffer.length = cursor
          · simp only [if_pos hR, connRead] at hrun
            have hlen2 : (buffer ++ List.replicate buffer.length 0).length =
                2 * buffer.length := by
              simp
              omega
            have hlenB : (buffer ++ List.replicate buffer.length 0).length ≤ B := by
              rw [hlen2]
              omega
            rcases Nat.eq_zero_or_pos (min ((buffer ++ List.replicate buffer.length 0).length - cursor)
                (min (conn.schedule.headD conn.stream.length) conn.stream.length)) with hz | hz
            · rw [if_pos hz] at hrun
              have hnewtrace : ∀ e ∈ (trace ++ [(cursor, buffer.length)]) ++
                  [(cursor, (buffer ++ List.replicate buffer.length 0).length)],
                  e.1 ≤ e.2 ∧ e.2 ≤ B := by
                intro e he
                rcases List.mem_append.mp he with he | he
                · exact htrace' e he
                · simp only [List.mem_singleton] at he
                  subst he
                  constructor
                  · simp
                    omega
                  · exact hlenB
              by_cases hc0 : cursor = 0
              · rw [if_pos hc0] at hrun
                simp only [Option.some.injEq] at hrun
                subst hrun
                exact hnewtrace
              · rw [if_neg hc0] at hrun
                simp only [Option.some.injEq] at hrun
                subst hrun
                exact hnewtrace
            · rw [if_neg (by omega)] at hrun
              refine ih _ _ _ _ _ _ _ _ _ ?_ ?_ hB htrace' hrun
              · rw [writeBytes_length]
                · have hble : (conn.stream.take (min ((buffer ++ List.replicate buffer.length 0).length - cursor)
                      (min (conn.schedule.headD conn.stream.length) conn.stream.length))).length ≤
                      (buffer ++ List.replicate buffer.length 0).length - cursor := by
                    simp only [List.length_take]
                    omega
                  omega
                · simp only [List.length_take]
                  omega
              · rw [writeBytes_length]
                · exact hlenB
                · simp only [List.length_take]
                  omega
          · simp only [if_neg hR, connRead] at hrun
            rcases Nat.eq_zero_or_pos (min (buffer.length - cursor)
                (min (conn.schedule.headD conn.stream.length) conn.stream.length)) with hz | hz
            · rw [if_pos hz] at hrun
              have hnewtrace : ∀ e ∈ (trace ++ [(cursor, buffer.length)]) ++
                  [(cursor, buffer.length)], e.1 ≤ e.2 ∧ e.2 ≤ B := by
                intro e he
                rcases List.mem_append.mp he with he | he
                · exact htrace' e he
                · simp only [List.mem_singleton] at he
                  subst he
                  exact ⟨hcur, hlen⟩
              by_cases hc0 : cursor = 0
              · rw [if_pos hc0] at hrun
                simp only [Option.some.injEq] at hrun
                subst hrun
                exact hnewtrace
              · rw [if_neg hc0] at hrun
                simp only [Option.some.injEq] at hrun
                subst hrun
                exact hnewtrace
            · rw [if_neg (by omega)] at hrun
              refine ih _ _ _ _ _ _ _ _ _ ?_ ?_ hB htrace' hrun
              · rw [writeBytes_length]
                · have : (conn.stream.take (min (buffer.length - cursor)
                      (min (conn.schedule.headD conn.stream.length) conn.stream.length))).length ≤
                      buffer.length - cursor := by
                    simp only [List.length_take]
                    omega
                  omega
                · simp only [List.length_take]
                  omega
              · rw [writeBytes_length]
                · exact hlen
                · simp only [List.length_take]
                  omega

/-- C3 counterexample: with initial size 2 and cap 3, input `[1,0,0]` makes
the loop double the buffer to length 4 — above `max_buffer_size = 3` — so
the recorded state `(cursor, len) = (3, 4)` violates the claimed bound
(doubling is not capped at `max_buffer_size` in the source). -/
theorem buffer_grows_past_max :
    run_server 20 ⟨[1, 0, 0], [], none⟩ [] 2 3 =
        some ⟨[], .tooMuchData, [], [(0, 2), (2, 2), (3, 4)]⟩ ∧
      (3, 4) ∈ [(0, 2), (2, 2), (3, 4)] ∧ ¬ (4 : Nat) ≤ 3 := by
  decide

/-- C3 (amended): in every recorded `(cursor, len)` state of any
`handle_connection` run the cursor never exceeds the buffer length, and the
buffer length never exceeds `max initial_buffer_size (2*(max_buffer_size-1))`
— one uncapped doubling of a length below the cap, rather than the cap
itself, bounds the growth. -/
theorem buffer_trace_bounded (fuel : Nat) (conn : Conn) (db : Db)
    (initB maxB : Nat) (ru : RunOut)
    (hrun : run_server fuel conn db initB maxB = some ru) :
    ∀ e ∈ ru.trace, e.1 ≤ e.2 ∧ e.2 ≤ max initB (2 * (maxB - 1)) := by
  refine handle_connection_trace_bound fuel conn db (List.replicate initB 0) 0 maxB
    [] [] ru (max initB (2 * (maxB - 1))) (by simp) (by simp) (le_max_right _ _)
    (by simp) hrun

/-- C3 witness: the bound at the recorded state `(15, 32)` of the
single-SET run. -/
theorem buffer_trace_bounded_witness :
    (15, 32).1 ≤ (15, 32).2 ∧ (15, 32).2 ≤ max 32 (2 * (93 - 1)) :=
  buffer_trace_bounded 20 ⟨[2, 0, 0, 0, 3, 97, 98, 99, 0, 0, 0, 3, 103, 104, 105], [], none⟩
    [] 32 93 ⟨[.set], .ok, [([97, 98, 99], [103, 104, 105])],
      [(0, 32), (15, 32), (0, 32), (0, 32)]⟩ (by decide) (15, 32) (by decide)

/-- A single wellformed ASCII frame of size at least `2 * maxBufferSize` can
never fit in any buffer the loop reaches (every doubled length stays below
`2 * maxBufferSize`), so the frame never parses: the loop keeps reading
until the overrun check fires, with no response and no store change. -/
theorem handle_connection_oversized (fuel : Nat) :
    ∀ (conn : Conn) (db : Db) (buffer : List Nat) (cursor maxB : Nat)
      (out : List Response) (trace : List (Nat × Nat)) (r : Request),
      wfRequest r = true → asciiRequest r = true →
      2 * maxB ≤ (serialize_request r).length →
      (∀ k ∈ conn.schedule, 0 < k) →
      buffer.take cursor = (serialize_request r).take cursor →
      conn.stream = (serialize_request r).drop cursor →
      cursor ≤ buffer.length →
      0 < buffer.length →
      (cursor = 0 ∨ cursor < 2 * maxB) →
      2 * maxB + 2 ≤ fuel + cursor →
      ∃ tr, handle_connection fuel conn db buffer cursor maxB out trace =
        some ⟨out, .tooMuchData, db, tr⟩ := by
  induction fuel with
  | zero =>
    intro conn db buffer cursor maxB out trace r _ _ _ _ _ _ _ _ hcb hfuel
    omega
  | succ fuel ih =>
    intro conn db buffer cursor maxB out trace r hwf hascii hbig hsched hpfx hstream
      hcur hpos hcb hfuel
    have hencpos : 0 < (serialize_request r).length := serialize_request_length_pos r
    have hclt : cursor < (serialize_request r).length := by
      rcases hcb with h0 | hlt
      · omega
      · omega
    have hparse : parse_request (buffer.take cursor) = .ok none := by
      rw [hpfx]
      exact parse_request_take_prefix r cursor hwf hascii hclt
    simp only [handle_connection, hparse, ge_iff_le]
    by_cases hM : maxB ≤ buffer.length
    · rw [if_pos hM]
      exact ⟨_, rfl⟩
    · rw [if_neg hM]
      have hstreampos : 0 < conn.stream.length := by
        rw [hstream]
        simp only [List.length_drop]
        omega
      have hlimpos : 0 < conn.schedule.headD conn.stream.length := by
        cases hc : conn.schedule with
        | nil => simpa using hstreampos
        | cons k ks => simpa using hsched k (by rw [hc]; exact List.mem_cons_self k ks)
      by_cases hR : buffer.length = cursor
      · -- buffer full: double it, then read
        simp only [if_pos hR, connRead]
        have hL2 : (buffer ++ List.replicate buffer.length 0).length = 2 * buffer.length := by
          simp
          omega
        set n := min ((buffer ++ List.replicate buffer.length 0).length - cursor)
          (min (conn.schedule.headD conn.stream.length) conn.stream.length) with hndef
        have hn : 0 < n := by
          rw [hndef, hL2]
          omega
        rw [if_neg (by omega)]
        have hbytes : (conn.stream.take n).length = n := by
          simp only [List.length_take]
          omega
        have hresize_take : (buffer ++ List.replicate buffer.length 0).take cursor =
            buffer.take cursor := List.take_append_of_le_length hcur
        have hwl : (writeBytes (buffer ++ List.replicate buffer.length 0) cursor
            (conn.stream.take n)).length = (buffer ++ List.replicate buffer.length 0).length :=
          writeBytes_length _ _ _ (by rw [hbytes, hL2]; omega)
        have htk : (writeBytes (buffer ++ List.replicate buffer.length 0) cursor
              (conn.stream.take n)).take (cursor + n) =
            (serialize_request r).take (cursor + n) := by
          have h1 := writeBytes_take (buffer ++ List.replicate buffer.length 0) cursor
            (conn.stream.take n) (by rw [hL2]; omega)
          rw [hbytes] at h1
          rw [h1, hresize_take, hpfx, hstream, List.take_add]
        have hds : conn.stream.drop n = (serialize_request r).drop (cursor + n) := by
          rw [hstream, List.drop_drop]
        obtain ⟨tr, htr⟩ := ih ⟨conn.stream.drop n, conn.schedule.drop 1, conn.writeBudget⟩
          db (writeBytes (buffer ++ List.replicate buffer.length 0) cursor (conn.stream.take n))
          (cursor + n) maxB out (trace ++ [(cursor, buffer.length)]) r hwf hascii hbig
          (fun k hk => hsched k (List.mem_of_mem_drop hk))
          htk hds
          (by rw [hwl, hL2]; omega)
          (by rw [hwl, hL2]; omega)
          (by right; rw [hndef]; rw [hL2]; omega)
          (by omega)
        exact ⟨tr, htr⟩
      · -- room left in the buffer: just read
        simp only [if_neg hR, connRead]
        set n := min (buffer.length - cursor)
          (min (conn.schedule.headD conn.stream.length) conn.stream.length) with hndef
        have hn : 0 < n := by
          rw [hndef]
          omega
        rw [if_neg (by omega)]
        have hbytes : (conn.stream.take n).length = n := by
          simp only [List.length_take]
          omega
        have hwl : (writeBytes buffer cursor (conn.stream.take n)).length = buffer.length :=
          writeBytes_length _ _ _ (by rw [hbytes]; omega)
        have htk : (writeBytes buffer cursor (conn.stream.take n)).take (cursor + n) =
            (serialize_request r).take (cursor + n) := by
          have h1 := writeBytes_take buffer cursor (conn.stream.take n) (by omega)
          rw [hbytes] at h1
          rw [h1, hpfx, hstream, List.take_add]
        have hds : conn.stream.drop n = (serialize_request r).drop (cursor + n) := by
          rw [hstream, List.drop_drop]
        obtain ⟨tr, htr⟩ := ih ⟨conn.stream.drop n, conn.schedule.drop 1, conn.writeBudget⟩
          db (writeBytes buffer cursor (conn.stream.take n))
          (cursor + n) maxB out (trace ++ [(cursor, buffer.length)]) r hwf hascii hbig
          (fun k hk => hsched k (List.mem_of_mem_drop hk))
          htk hds
          (by rw [hwl]; omega)
          (by rw [hwl]; omega)
          (by right; rw [hndef]; omega)
          (by omega)
        exact ⟨tr, htr⟩

/-- C7 counterexample: the 100-byte SET frame for key `"123"` exceeds
`max_buffer_size = 93`, yet the handler parses it out of the doubled 128-byte
buffer, mutates the store and emits the ack before dying of "too much
data" — the claimed "no store mutation" fails. -/
theorem oversized_frame_still_mutates_store :
    (serialize_request (.set [49, 50, 51] (List.replicate 88 65))).length = 100 ∧
      (run_server 20 ⟨serialize_request (.set [49, 50, 51] (List.replicate 88 65)),
          [], none⟩ [] 32 93).map RunOut.obs =
        some ([.set], .tooMuchData, [([49, 50, 51], List.replicate 88 65)]) := by
  decide

/-- C7 (amended): a single frame of total size at least `2*max_buffer_size`
(too big for even one uncapped doubling to reach) makes the handler
terminate with "too much data", emitting no response and leaving the store
untouched.  Frames between `max_buffer_size` and the largest doubled buffer
can still be processed and applied before the connection dies. -/
theorem hugely_oversized_frame_rejected (r : Request) (sched : List Nat) (db : Db)
    (initB maxB : Nat) (hwf : wfRequest r = true) (hascii : asciiRequest r = true)
    (hbig : 2 * maxB ≤ (serialize_request r).length)
    (hsched : ∀ k ∈ sched, 0 < k) (hpos : 0 < initB) :
    ∃ tr, run_server (2 * maxB + 2) ⟨serialize_request r, sched, none⟩ db initB maxB =
      some ⟨[], .tooMuchData, db, tr⟩ := by
  have h := handle_connection_oversized (2 * maxB + 2)
    ⟨serialize_request r, sched, none⟩ db (List.replicate initB 0) 0 maxB [] [] r
    hwf hascii hbig hsched (by simp) rfl (by simp) (by simpa using hpos)
    (Or.inl rfl) (by omega)
  simpa [run_server] using h

/-- C7 witness: a six-byte GET frame against `max_buffer_size = 3`. -/
theorem hugely_oversized_frame_rejected_witness :
    ∃ tr, run_server (2 * 3 + 2) ⟨serialize_request (.get [97]), [], none⟩ [] 2 3 =
      some ⟨[], .tooMuchData, [], tr⟩ :=
  hugely_oversized_frame_rejected (.get [97]) [] [] 2 3 (by decide) (by decide)
    (by decide) (by simp) (by omega)

/-- C9: on input holding a frame whose string field is invalid UTF-8
(`[1,0,0,0,1,128]`, a GET with the lone continuation byte `0x80` as key),
`handle_connection` panics through `Result::unwrap` — it terminates
abnormally instead of returning an error value to its caller. -/
theorem malformed_frame_causes_crash :
    (run_server 5 ⟨[1, 0, 0, 0, 1, 128], [], none⟩ [] 32 1024).map RunOut.obs =
      some ([], .crashed, []) := by
  decide

/-- The Set, Delete and Flush requests: those whose dispatch mutates the
store before the response is written. -/
def mutatingRequest : Request → Bool
  | .get _ => false
  | .set _ _ => true
  | .delete _ => true
  | .flush => true

/-- C10: for a mutating request whose response write fails, the handler
returns the I/O error, emits nothing, and the final store is exactly the
store after applying the request — the mutation is not rolled back. -/
theorem mutation_persists_on_write_failure (r : Request) (db : Db) (initB maxB : Nat)
    (hmut : mutatingRequest r = true)
    (hwf : wfRequest r = true)
    (hfit : (serialize_request r).length ≤ initB)
    (hmax : initB < maxB) :
    ∃ tr, run_server 3 ⟨serialize_request r, [], some 0⟩ db initB maxB =
      some ⟨[], .ioFault, (applyRequest db r).1, tr⟩ := by
  have hencpos : 0 < (serialize_request r).length := serialize_request_length_pos r
  have hinitpos : 0 < initB := by omega
  have hparse : parse_request (serialize_request r) =
      .ok (some (r, (serialize_request r).length)) := by
    simpa using parse_request_exact r [] hwf
  simp only [run_server, handle_connection, List.take_zero, List.length_replicate,
    show parse_request [] = .ok none from rfl, ge_iff_le]
  rw [if_neg (by omega)]
  rw [show (if initB = 0 then List.replicate initB 0 ++ List.replicate initB 0
      else List.replicate initB 0) = List.replicate initB 0 from if_neg (by omega)]
  simp only [connRead, List.headD_nil, List.length_replicate]
  have hn : min (initB - 0) (min (serialize_request r).length (serialize_request r).length)
      = (serialize_request r).length := by
    omega
  simp only [hn]
  rw [if_neg (by omega)]
  have hbuf : writeBytes (List.replicate initB 0) 0
      ((serialize_request r).take (serialize_request r).length) =
      serialize_request r ++ List.replicate (initB - (serialize_request r).length) 0 := by
    simp [writeBytes, List.drop_replicate]
  rw [hbuf]
  have htk : (serialize_request r ++
      List.replicate (initB - (serialize_request r).length) 0).take
      (0 + (serialize_request r).length) = serialize_request r := by
    rw [Nat.zero_add]
    exact List.take_left _ _
  rw [htk, hparse]
  simp only [connWrite]
  exact ⟨_, rfl⟩

/-- C10 witness: write failure after a SET of `"a" -> "b"` leaves the
binding in the store. -/
theorem mutation_persists_on_write_failure_witness :
    ∃ tr, run_server 3 ⟨serialize_request (.set [97] [98]), [], some 0⟩ [] 32 93 =
      some ⟨[], .ioFault, [([97], [98])], tr⟩ :=
  mutation_persists_on_write_failure (.set [97] [98]) [] 32 93 (by decide) (by decide)
    (by decide) (by omega)

/-- C8 counterexample: the GET response carrying `"ab"` arrives split as
`[1,0,0,0,2,97]` then `[98]`.  The claim says the loop retains the first
chunk and keeps reading until the full frame decodes; in fact the whole
zero-padded buffer is parsed right after the first read and the client
returns `Get(Some "a\0")` — a frame fabricated from the padding. -/
theorem client_read_overwrites_buffer :
    serialize_response (.get (some [97, 98])) = [1, 0, 0, 0, 2, 97, 98] ∧
      run_client 20 ⟨[1, 0, 0, 0, 2, 97, 98], [6, 1], none⟩ 8 64 =
        some (.ok (.get (some [97, 0]))) ∧
      Response.get (some [97, 0]) ≠ .get (some [97, 98]) := by
  decide

theorem serialize_response_length_pos (resp : Response) :
    0 < (serialize_response resp).length := by
  cases resp with
  | get v => cases v <;> simp [serialize_response]
  | set => simp [serialize_response]
  | delete => simp [serialize_response]
  | flush => simp [serialize_response]

/-- Parsing a whole encoded response out of a zero-padded buffer recovers
the response: the padding after a complete frame is ignored, and for a
value-less GET the zero padding reads as a zero length, which `read_element`
maps to "no element". -/
theorem parse_response_padded (resp : Response) (m : Nat)
    (hwf : wfResponse resp = true) :
    parse_response (serialize_response resp ++ List.replicate m 0) = .ok (some resp) := by
  cases resp with
  | set => simp [serialize_response, parse_response]
  | delete => simp [serialize_response, parse_response]
  | flush => simp [serialize_response, parse_response]
  | get v =>
    cases v with
    | none =>
      have hshape : serialize_response (.get none) ++ List.replicate m 0 =
          1 :: List.replicate m 0 := by simp [serialize_response]
      rw [hshape]
      by_cases hm : m < 4
      · have hre : read_element (1 :: List.replicate m 0) 1 = .ok (none, 1) :=
          read_element_short (by simp; omega)
        simp [parse_response, hre]
      · have hre : read_element (1 :: List.replicate m 0) 1 = .ok (none, 1) := by
          apply read_element_zero
          · simp
            omega
          · have hd : ((1 :: List.replicate m 0).drop 1).take 4 = List.replicate 4 0 := by
              simp [List.take_replicate]
              rw [show 4 ⊓ m = 4 from by omega]
              decide
            rw [hd]
            decide
        simp [parse_response, hre]
    | some value =>
      obtain ⟨hne, hval, hlt⟩ := wfStr_spec hwf
      have hshape : serialize_response (.get (some value)) ++ List.replicate m 0 =
          1 :: (beBytes4 value.length ++ (value ++ List.replicate m 0)) := by
        simp [serialize_response]
      rw [hshape]
      have hre := read_element_exact [1] value (List.replicate m 0) hne hlt hval
      simp only [List.singleton_append, List.length_singleton] at hre
      simp [parse_response, hre]

/-- C8 (amended): each iteration of the client's receive loop reads into
the buffer at offset 0 — overwriting, not accumulating — and parses the
whole zero-padded buffer; so when the entire encoded response arrives in
the first read and fits the initial buffer, the loop returns that decoded
response after that one read. -/
theorem client_single_read_response (resp : Response) (initB maxB : Nat)
    (hwf : wfResponse resp = true)
    (hfit : (serialize_response resp).length ≤ initB) :
    run_client 1 ⟨serialize_response resp, [], none⟩ initB maxB = some (.ok resp) := by
  have hL : 0 < (serialize_response resp).length := serialize_response_length_pos resp
  simp only [run_client, receive_response, connRead, List.headD_nil, List.length_replicate]
  have hn : min initB
      (min (serialize_response resp).length (serialize_response resp).length) =
      (serialize_response resp).length := by
    omega
  simp only [hn]
  have hbuf : writeBytes (List.replicate initB 0) 0
      ((serialize_response resp).take (serialize_response resp).length) =
      serialize_response resp ++ List.replicate (initB - (serialize_response resp).length) 0 := by
    simp [writeBytes, List.drop_replicate]
  rw [hbuf, parse_response_padded resp _ hwf]

/-- C8 witness: the loop decodes `Get(Some "ab")` delivered whole in the
first read. -/
theorem client_single_read_response_witness :
    run_client 1 ⟨serialize_response (.get (some [97, 98])), [], none⟩ 8 64 =
      some (.ok (.get (some [97, 98]))) :=
  client_single_read_response (.get (some [97, 98])) 8 64 (by decide) (by decide)

end Zcached
